import Mathlib

/-!
Verification development for the latency-analysis scripts in
`Latency_Categorize_data/`.  The scripts are shallowly embedded:

* numeric columns are lists of rationals (`List ℚ`); the scripts' float
  arithmetic is modelled exactly over `ℚ`;
* possibly-missing CSV cells (`NaN`) are `Option` values;
* `pandas.qcut(column, 5, labels)` is embedded from its documented
  semantics (linear-interpolation quantiles at 0,20,40,60,80,100 percent,
  right-closed bins with the lowest value included, `ValueError` on
  duplicate bin edges under the default `duplicates` policy) as `qcut5`,
  returning `none` on the error path;
* `scipy.stats.kruskal` is embedded as the exact rational H statistic
  with midranks and tie correction (`kruskalH`); the chi-square tail that
  turns H into a p-value is transcendental, so script steps that only
  compare a p-value against 0.05 take that p-value as a parameter;
* `scikit_posthocs.posthoc_dunn` is likewise parameterised by the raw
  pairwise p-value matrix (a normal-distribution tail); what the scripts
  control — the Bonferroni adjustment and which entries reach the
  report — is embedded exactly;
* `pandas.merge(..., how=inner)`, `pandas.concat(..., axis=1)` and
  `groupby(...).first()` are embedded from their documented semantics on
  list-of-row tables.

Rational arithmetic inside the embedded functions is written with
`mkRat` / `Rat.divInt` primitives (`rAdd`, `rSub`, `rMul`, `rDiv`) so
that every embedded function evaluates on concrete inputs by kernel
reduction; the lemmas `rAdd_eq`, `rSub_eq`, `rMul_eq`, `rDiv_eq` relate
them to the standard field operations for the general proofs.
-/

namespace InPDApp

/-! ### Kernel-reducible rational arithmetic -/

def rAdd (a b : ℚ) : ℚ := mkRat (a.num * b.den + b.num * a.den) (a.den * b.den)

def rSub (a b : ℚ) : ℚ := mkRat (a.num * b.den - b.num * a.den) (a.den * b.den)

def rMul (a b : ℚ) : ℚ := mkRat (a.num * b.num) (a.den * b.den)

def rDiv (a b : ℚ) : ℚ := Rat.divInt (a.num * b.den) (a.den * b.num)

/-- Floor of a rational into `ℕ` (zero on negatives), written on the
numerator and denominator so that it evaluates by kernel reduction. -/
def ratFloorNat (q : ℚ) : ℕ :=
  q.num.toNat / q.den

/-- Significance threshold: the literal `0.05` hard-coded throughout the
scripts (e.g. `Statistical_analysis_HighGasUsed.py` lines 85, 135, 150). -/
def alpha : ℚ := mkRat 1 20

/-! ### Pair enumeration used by every post-hoc table

All scripts enumerate the C(5,2) = 10 unordered quintile pairs in the
fixed order (Q1,Q2), (Q1,Q3), ..., (Q4,Q5): two nested loops with
`i < j` (e.g. `Statistical_analysis_HighGasUsed.py` lines 146-147,
`Latency_addition+selection_analysis_Phase1.py` lines 170-172). -/

def allQPairs : List (Fin 5 × Fin 5) :=
  (List.finRange 5).flatMap fun i =>
    (List.finRange 5).filterMap fun j =>
      if i < j then some (i, j) else none

/-! ### Cliff's delta

Embeds `cliffs_delta` from `Statistical_analysis_HighGasUsed.py`
lines 11-19 (identical copy in `Statistical_analysis_LowGasUsed.py`
lines 13-21; the pip-installed `cliffs_delta` used by the Phase1/Phase2
scripts computes the same dominance statistic): build the full Cartesian
product of the two lists, count pairs with `x1 > x2` and with `x1 < x2`,
divide the difference by `n1 * n2`. -/

def allPairsOf (lst1 lst2 : List ℚ) : List (ℚ × ℚ) :=
  lst1.flatMap fun x1 => lst2.map fun x2 => (x1, x2)

def cliffs_delta (lst1 lst2 : List ℚ) : ℚ :=
  let n1 : ℕ := lst1.length
  let n2 : ℕ := lst2.length
  let all_pairs := allPairsOf lst1 lst2
  let n_concordant : ℕ := all_pairs.countP fun p => p.1 > p.2
  let n_discordant : ℕ := all_pairs.countP fun p => p.1 < p.2
  Rat.divInt ((n_concordant : ℤ) - (n_discordant : ℤ)) ((n1 : ℤ) * (n2 : ℤ))

/-- Spec-side restatement of Cliff's delta, written from the spec's words
(§4.4 step 2): "(count of pairs where group-A value exceeds group-B value
minus count where group-B exceeds group-A value) / (|A| x |B|), evaluated
over the full Cartesian product".  The counts are taken per-element of A
rather than via one product list, so agreement with `cliffs_delta` is a
genuine refinement fact. -/
def cliffsDeltaSpec (a b : List ℚ) : ℚ :=
  let gt : ℕ := (a.map fun x => b.countP fun y => y < x).sum
  let lt : ℕ := (a.map fun x => b.countP fun y => x < y).sum
  ((gt : ℚ) - (lt : ℚ)) / ((a.length : ℚ) * (b.length : ℚ))

/-! ### Quintile binner

Embeds `pd.qcut(column, 5, labels=[Q1..Q5])` as called at
`Statistical_analysis_HighGasUsed.py` line 83,
`Latency_addition+selection_analysis_Phase1.py` line 75,
`Latency_breach_penalty_analysis_Phase2.py` line 132, from pandas'
documented semantics:

* the six bin edges are the empirical quantiles of the column at
  0, 20, 40, 60, 80, 100 percent, computed by linear interpolation on
  the ascending-sorted values (position `(i / 5) * (n - 1)` for edge
  `i`, value interpolated between the two neighbouring order
  statistics);
* with the default `duplicates` policy, duplicate bin edges raise
  `ValueError` (modelled as `none`);
* otherwise every value is labelled by the right-closed bin it falls
  in, with the lowest value included in the first bin.

Bins are `Fin 5` (0 = Q1 .. 4 = Q5). -/

def sortAsc (xs : List ℚ) : List ℚ :=
  List.insertionSort (· ≤ ·) xs

/-- Linear-interpolation quantile of the sorted list `v` at fraction
`i / 5` (`i` from 0 to 5): with `h = (i / 5) * (length - 1)` and
`k = ⌊h⌋`, the value is `v[k] + (h - k) * (v[k+1] - v[k])`. -/
def quantileIdx (v : List ℚ) (i : ℕ) : ℚ :=
  let M : ℕ := v.length - 1
  let h : ℚ := mkRat ((i * M : ℕ) : ℤ) 5
  let k : ℕ := ratFloorNat h
  let a := v.getD k 0
  let b := v.getD (k + 1) a
  rAdd a (rMul (rSub h (k : ℚ)) (rSub b a))

def qedges (xs : List ℚ) : List ℚ :=
  let v := sortAsc xs
  [quantileIdx v 0, quantileIdx v 1, quantileIdx v 2,
   quantileIdx v 3, quantileIdx v 4, quantileIdx v 5]

def binOf (e : List ℚ) (x : ℚ) : Fin 5 :=
  if x ≤ e.getD 1 0 then 0
  else if x ≤ e.getD 2 0 then 1
  else if x ≤ e.getD 3 0 then 2
  else if x ≤ e.getD 4 0 then 3
  else 4

def qcut5 (xs : List ℚ) : Option (List (Fin 5)) :=
  if xs.isEmpty then none
  else if (qedges xs).Nodup then some (xs.map (binOf (qedges xs)))
  else none

/-- Number of distinct values of a column (`Series.nunique`). -/
def distinctCount (xs : List ℚ) : ℕ :=
  xs.dedup.length

/-! ### Dunn post-hoc matrix and Bonferroni adjustment

`sp.posthoc_dunn` computes, for each unordered pair of groups, a raw
two-sided p-value from a normal tail of the standardized rank-mean
difference; that tail is transcendental, so the raw symmetric matrix is
a parameter `raw` here.  What the scripts choose is the `p_adjust`
argument: with `p_adjust=bonferroni` (statsmodels `multipletests`) each
of the 10 off-diagonal entries is multiplied by the number of
comparisons and clipped at 1; with the default `p_adjust=None` the raw
matrix is returned unchanged.  The diagonal is 1.

Call sites: `Latency_addition+selection_analysis_Phase1.py` line 159,
`Latency_breach_penalty_analysis_Phase2.py` lines 178-181 and
`Latency_analysis_each_function.py` line 146 pass
`p_adjust=bonferroni`; `Statistical_analysis_HighGasUsed.py` line 143
and `Statistical_analysis_LowGasUsed.py` line 193 pass no `p_adjust`. -/

def bonferroniAdjust (m : ℕ) (p : ℚ) : ℚ :=
  min 1 (rMul (m : ℚ) p)

def dunnPosthocMatrix (raw : Fin 5 → Fin 5 → ℚ) (adjustBonferroni : Bool) :
    Fin 5 → Fin 5 → ℚ :=
  fun i j =>
    if i = j then 1
    else if adjustBonferroni then bonferroniAdjust allQPairs.length (raw i j)
    else raw i j

/-! ### Post-hoc reporting steps of the individual scripts -/

/-- Effect-size cell of a pairwise comparison row: either a Cliff's
delta value or the literal "Not significant" marker text. -/
inductive EffectCell where
  | value (d : ℚ)
  | notSignificant
deriving DecidableEq

structure PairRow where
  i : Fin 5
  j : Fin 5
  pval : ℚ
  effect : EffectCell
deriving DecidableEq

/-- Pairwise-comparison table of `perform_statistical_analysis`
(`Statistical_analysis_HighGasUsed.py` lines 145-157, identical in
`Statistical_analysis_LowGasUsed.py` lines 195-207): for each pair
`i < j`, if the Dunn p-value is below 0.05 the row carries the Cliff's
delta of the two quintile groups, otherwise the "Not significant"
marker; `cliffs_delta` is only called in the significant branch. -/
def statAnalysisComparisons (groups : Fin 5 → List ℚ)
    (posthoc : Fin 5 → Fin 5 → ℚ) : List PairRow :=
  allQPairs.map fun ij =>
    let p := posthoc ij.1 ij.2
    if p < alpha then
      ⟨ij.1, ij.2, p, .value (cliffs_delta (groups ij.1) (groups ij.2))⟩
    else ⟨ij.1, ij.2, p, .notSignificant⟩

/-- Per-feature post-hoc step of `perform_statistical_analysis`
(`Statistical_analysis_HighGasUsed.py` lines 124-157): the Dunn test and
the comparison table exist only inside the `result.pvalue < 0.05`
branch; the Dunn call at line 143 passes no `p_adjust`. -/
def statAnalysisFeatureStep (pval : ℚ) (groups : Fin 5 → List ℚ)
    (raw : Fin 5 → Fin 5 → ℚ) : Option (List PairRow) :=
  if pval < alpha then
    some (statAnalysisComparisons groups (dunnPosthocMatrix raw false))
  else none

structure Phase1Row where
  i : Fin 5
  j : Fin 5
  isDiff : Bool
  pval : ℚ
  effect : EffectCell
deriving DecidableEq

/-- Embeds `produce_posthoc_cliffs_table`
(`Latency_addition+selection_analysis_Phase1.py` lines 139-206): Dunn
with `p_adjust=bonferroni` (line 159); for every pair the Cliff's delta
is computed unconditionally (lines 174-177) but the effect column shows
"Not significant" when the adjusted p-value is not below 0.05
(lines 180-183). -/
def producePosthocCliffsTable (groups : Fin 5 → List ℚ)
    (raw : Fin 5 → Fin 5 → ℚ) : List Phase1Row :=
  let posthoc := dunnPosthocMatrix raw true
  allQPairs.map fun ij =>
    let p := posthoc ij.1 ij.2
    let d := cliffs_delta (groups ij.1) (groups ij.2)
    ⟨ij.1, ij.2, decide (p < alpha), p,
      if p < alpha then .value d else .notSignificant⟩

/-- Per-factor gate of `build_report`
(`Latency_addition+selection_analysis_Phase1.py` lines 341-363): the
post-hoc table page is drawn only when the tabulated Kruskal-Wallis
p-value (`kruskal_test_for_factors` rounds it to 6 decimals at line 91;
`pval` here is that tabulated value) is below 0.05. -/
def phase1BuildReportFactor (pval : ℚ) (groups : Fin 5 → List ℚ)
    (raw : Fin 5 → Fin 5 → ℚ) : Option (List Phase1Row) :=
  if pval < alpha then some (producePosthocCliffsTable groups raw)
  else none

structure Phase2Row where
  i : Fin 5
  j : Fin 5
  pval : ℚ
  delta : ℚ
  significant : Bool
deriving DecidableEq

/-- Embeds the post-hoc part of `analyze_factor`
(`Latency_breach_penalty_analysis_Phase2.py` lines 163-209): when the
Kruskal-Wallis p-value is below 0.05, Dunn with `p_adjust=bonferroni`
is run and every one of the 10 pair rows carries a computed Cliff's
delta together with a Yes/No significance flag (lines 187-205); the
rounding applied for display (`round(pval_ij, 5)`, `round(d_val, 3)`)
is omitted, the exact values are kept.  When the omnibus p-value is not
below 0.05, `posthoc_df` stays `None` (lines 164, 208-209). -/
def analyzeFactorPosthoc (kwP : ℚ) (groups : Fin 5 → List ℚ)
    (raw : Fin 5 → Fin 5 → ℚ) : Option (List Phase2Row) :=
  if kwP < alpha then
    let posthoc := dunnPosthocMatrix raw true
    some (allQPairs.map fun ij =>
      let p := posthoc ij.1 ij.2
      ⟨ij.1, ij.2, p, cliffs_delta (groups ij.1) (groups ij.2),
        decide (p < alpha)⟩)
  else none

/-- One printed artefact of the `Latency_analysis_each_function.py` main
flow: either a Kruskal-Wallis summary line or a Dunn post-hoc matrix. -/
inductive AnalysisEvent where
  | kruskalResult (p : ℚ)
  | dunnTable (m : Fin 5 → Fin 5 → ℚ)

def AnalysisEvent.isDunnTable : AnalysisEvent → Bool
  | .dunnTable _ => true
  | _ => false

/-- Embeds the per-quintile-column main flow of
`Latency_analysis_each_function.py` (lines 165-170 and 180-185): after
`perform_kruskal_and_summary` prints the Kruskal-Wallis result,
`perform_dunn_posthoc` (line 146, `p_adjust=bonferroni`) is invoked
unconditionally — there is no branch on the p-value. -/
def eachFunctionColumnEvents (pval : ℚ) (raw : Fin 5 → Fin 5 → ℚ) :
    List AnalysisEvent :=
  [.kruskalResult pval, .dunnTable (dunnPosthocMatrix raw true)]

/-! ### Hash-based inner merge

Embeds the hash-based branch of `process_service_data`.  Rows carry the
join key and the fields relevant to the claims; the transaction hash is
modelled as `Option ℕ` (pandas matches null keys with null keys in
`merge`). -/

structure LatRow where
  hash : Option ℕ
  lat : Option ℚ
deriving DecidableEq

structure BlockRow where
  hash : Option ℕ
  gasPrice : Option ℚ
deriving DecidableEq

structure MergedRow where
  hash : Option ℕ
  gasPrice : Option ℚ
  lat : Option ℚ
deriving DecidableEq

/-- Inner join on the transaction hash (`pd.merge(all_block_data,
all_latency_data, on=Transaction Hash, how=inner)`): for each left
(block) row in order, one output row per matching right (latency) row. -/
def mergeInnerOnHash (blocks : List BlockRow) (lats : List LatRow) :
    List MergedRow :=
  blocks.flatMap fun b =>
    (lats.filter fun l => l.hash = b.hash).map fun l =>
      ⟨b.hash, b.gasPrice, l.lat⟩

/-- The `df.dropna(subset=[Transaction Hash])` applied to each latency
file in `Statistical_analysis_HighGasUsed.py` line 30. -/
def dropnaHash (lats : List LatRow) : List LatRow :=
  lats.filter fun l => l.hash.isSome

def mergedRowComplete (r : MergedRow) : Bool :=
  r.hash.isSome && r.gasPrice.isSome && r.lat.isSome

/-- The `.dropna()` applied to the merged table. -/
def dropnaMerged (rs : List MergedRow) : List MergedRow :=
  rs.filter mergedRowComplete

/-- Merge pipeline of `Statistical_analysis_HighGasUsed.py`
`process_service_data` (lines 21-46): latency rows with a missing hash
are dropped (line 30), then the inner merge at line 43 — with no
`.dropna()` on the result. -/
def processServiceDataHG (blocks : List BlockRow) (lats : List LatRow) :
    List MergedRow :=
  mergeInnerOnHash blocks (dropnaHash lats)

/-- Merge pipeline of `Latency_addition+selection_analysis_Phase1.py`
`process_service_data` (lines 52-55): inner merge followed by
`.dropna()` on the merged table. -/
def processServiceDataPhase1 (blocks : List BlockRow) (lats : List LatRow) :
    List MergedRow :=
  dropnaMerged (mergeInnerOnHash blocks lats)

/-! ### Index-based loader deduplication

Embeds `df.groupby([Iteration, UserIndex]).first().reset_index()`
(`Latency_analysis_each_function.py` lines 82-86,
`Latency_breach+penalty_analysis_LowGasUsed_final.py` lines 18-22) from
pandas' documented semantics: one output row per distinct key, keys in
ascending sorted order (`groupby` default `sort=True`), and — per
column — the first non-null value within the group in original row
order (`GroupBy.first` skips nulls). -/

structure IdxRow where
  iter : ℕ
  user : ℕ
  lat : Option ℚ
  extra : Option ℚ
deriving DecidableEq

def idxKey (r : IdxRow) : ℕ × ℕ := (r.iter, r.user)

def keyLe (a b : ℕ × ℕ) : Prop :=
  a.1 < b.1 ∨ (a.1 = b.1 ∧ a.2 ≤ b.2)

instance : DecidableRel keyLe := fun a b => by
  unfold keyLe; infer_instance

def sortedKeysOf (rows : List IdxRow) : List (ℕ × ℕ) :=
  List.insertionSort keyLe (rows.map idxKey).dedup

/-- First non-null value of one column within a group, in original row
order. -/
def firstSomeField (f : IdxRow → Option ℚ) (rs : List IdxRow) : Option ℚ :=
  (rs.filterMap f).head?

def groupFirstByKey (rows : List IdxRow) : List IdxRow :=
  (sortedKeysOf rows).map fun k =>
    let grp := rows.filter fun r => idxKey r = k
    ⟨k.1, k.2, firstSomeField (fun r => r.lat) grp,
      firstSomeField (fun r => r.extra) grp⟩

def idxRowComplete (r : IdxRow) : Bool :=
  r.lat.isSome && r.extra.isSome

/-! ### Index-based positional merge

Embeds `pd.concat([all_gas_data.reset_index(drop=True),
all_latency_data.reset_index(drop=True)], axis=1).dropna()`
(`Latency_analysis_each_function.py` line 120,
`Latency_breach_penalty_analysis_Phase2.py` lines 98-99): column-wise
concatenation on the fresh integer ranges amounts to padding the
shorter table with all-null rows up to the longer length, then
`.dropna()` removes every row in which any cell is null. -/

structure BlockRowIx where
  gasPrice : Option ℚ
  blockSizeKB : Option ℚ
  txCount : Option ℚ
  hash : Option ℕ
deriving DecidableEq

structure LatRowIx where
  lat : Option ℚ
  iter : Option ℕ
  user : Option ℕ
deriving DecidableEq

def blockIxComplete (b : BlockRowIx) : Bool :=
  b.gasPrice.isSome && b.blockSizeKB.isSome && b.txCount.isSome && b.hash.isSome

def latIxComplete (l : LatRowIx) : Bool :=
  l.lat.isSome && l.iter.isSome && l.user.isSome

/-- Row-aligned outer padding of two tables (`pd.concat(axis=1)` on two
freshly reset integer indexes). -/
def zipPad : List BlockRowIx → List LatRowIx →
    List (Option BlockRowIx × Option LatRowIx)
  | [], [] => []
  | b :: bs, [] => (some b, none) :: zipPad bs []
  | [], l :: ls => (none, some l) :: zipPad [] ls
  | b :: bs, l :: ls => (some b, some l) :: zipPad bs ls

/-- Index-based merge branch of `process_service_data`: concat
side-by-side, then drop every row with any null cell. -/
def indexBasedMerge (gas : List BlockRowIx) (lats : List LatRowIx) :
    List (BlockRowIx × LatRowIx) :=
  (zipPad gas lats).filterMap fun p =>
    match p with
    | (some b, some l) =>
        if blockIxComplete b && latIxComplete l then some (b, l) else none
    | _ => none

/-! ### Kruskal-Wallis H statistic

Embeds `scipy.stats.kruskal` exactly up to (but not including) the
chi-square tail: midranks over the pooled sample, rank sums per group,
`H = 12 / (N (N + 1)) * Σ Rᵢ² / nᵢ - 3 (N + 1)`, divided by the tie
correction `1 - Σ (t³ - t) / (N³ - N)`.  scipy raises `ValueError` when
all pooled values are identical (tie correction 0); that error path and
degenerate pooled sizes are `none`. -/

def countLtQ (x : ℚ) (l : List ℚ) : ℕ := l.countP fun y => y < x

def countEqQ (x : ℚ) (l : List ℚ) : ℕ := l.countP fun y => y = x

def midrank (pooled : List ℚ) (x : ℚ) : ℚ :=
  rAdd ((countLtQ x pooled : ℕ) : ℚ) (mkRat (countEqQ x pooled + 1) 2)

def rankSum (pooled g : List ℚ) : ℚ :=
  (g.map (midrank pooled)).foldr rAdd 0

def kruskalH (groups : List (List ℚ)) : Option ℚ :=
  let pooled := groups.foldr (· ++ ·) []
  let N := pooled.length
  if N ≤ 1 then none
  else if groups.any (·.isEmpty) then none
  else
    let S : ℚ := (groups.map fun g =>
      rDiv (rMul (rankSum pooled g) (rankSum pooled g)) ((g.length : ℕ) : ℚ)).foldr rAdd 0
    let H0 : ℚ := rSub (rMul (mkRat 12 (N * (N + 1))) S) (((3 * (N + 1) : ℕ) : ℚ))
    let tieSum : ℕ := (pooled.dedup.map fun v =>
      let t := countEqQ v pooled
      t ^ 3 - t).sum
    let tieCorrection : ℚ := rSub 1 (mkRat (tieSum : ℤ) (N ^ 3 - N))
    if tieCorrection = 0 then none else some (rDiv H0 tieCorrection)

/-! ### Full pipeline (one covariate)

Composes the stages the way each script does for one covariate: bin the
covariate into quintiles, group the latencies by bin, run
Kruskal-Wallis, obtain the p-value (`pvalOf`, the chi-square tail,
abstracted), and when significant compute the ten pairwise Cliff's
deltas.  `data` is the merged table as (covariate, latency) pairs. -/

def groupsOfLabels (labels : List (Fin 5)) (lats : List ℚ) :
    Fin 5 → List ℚ :=
  fun i => (labels.zip lats).filterMap fun li =>
    if li.1 = i then some li.2 else none

def pipelineRun (pvalOf : ℚ → ℚ) (data : List (ℚ × ℚ)) :
    Option (ℚ × ℚ × List ℚ) :=
  match qcut5 (data.map Prod.fst) with
  | none => none
  | some labels =>
    let groups := groupsOfLabels labels (data.map Prod.snd)
    match kruskalH ((List.finRange 5).map groups) with
    | none => none
    | some H =>
      let p := pvalOf H
      let deltas :=
        if p < alpha then
          allQPairs.map fun ij => cliffs_delta (groups ij.1) (groups ij.2)
        else []
      some (H, p, deltas)

/-- The spec's §8 scenario dataset: an already-sorted covariate 0..24
with latencies five 1s, five 2s, five 3s, five 4s and five 100s. -/
def specScenarioData : List (ℚ × ℚ) :=
  (List.range 25).map fun n =>
    ((n : ℚ), if n < 5 then 1 else if n < 10 then 2 else if n < 15 then 3
      else if n < 20 then 4 else 100)

/-! ## General lemmas -/

theorem rAdd_eq (a b : ℚ) : rAdd a b = a + b := by
  have ha : ((a.den : ℚ)) ≠ 0 := by positivity
  have hb : ((b.den : ℚ)) ≠ 0 := by positivity
  rw [rAdd, Rat.mkRat_eq_div]
  push_cast
  conv_rhs => rw [← Rat.num_div_den a, ← Rat.num_div_den b]
  field_simp

theorem rSub_eq (a b : ℚ) : rSub a b = a - b := by
  have ha : ((a.den : ℚ)) ≠ 0 := by positivity
  have hb : ((b.den : ℚ)) ≠ 0 := by positivity
  rw [rSub, Rat.mkRat_eq_div]
  push_cast
  conv_rhs => rw [← Rat.num_div_den a, ← Rat.num_div_den b]
  field_simp
  ring

theorem rMul_eq (a b : ℚ) : rMul a b = a * b := by
  have ha : ((a.den : ℚ)) ≠ 0 := by positivity
  have hb : ((b.den : ℚ)) ≠ 0 := by positivity
  rw [rMul, Rat.mkRat_eq_div]
  push_cast
  conv_rhs => rw [← Rat.num_div_den a, ← Rat.num_div_den b]
  field_simp

theorem rDiv_eq (a b : ℚ) : rDiv a b = a / b := by
  rcases eq_or_ne b 0 with hb | hb
  · subst hb
    simp [rDiv, Rat.divInt_eq_div]
  · have hbnum : (b.num : ℚ) ≠ 0 := by
      exact_mod_cast fun h => hb (by
        have := Rat.num_div_den b
        rw [show b.num = 0 from by exact_mod_cast h] at this
        simpa using this.symm)
    have ha : ((a.den : ℚ)) ≠ 0 := by positivity
    have hbd : ((b.den : ℚ)) ≠ 0 := by positivity
    rw [rDiv, Rat.divInt_eq_div]
    push_cast
    conv_rhs => rw [← Rat.num_div_den a, ← Rat.num_div_den b]
    field_simp

theorem ratFloorNat_eq (q : ℚ) : ratFloorNat q = ⌊q⌋₊ := by
  rcases le_or_lt 0 q with hq | hq
  · have hnum : 0 ≤ q.num := Rat.num_nonneg.2 hq
    rw [ratFloorNat, ← Int.floor_toNat, Rat.floor_def]
    obtain ⟨m, hm⟩ := Int.eq_ofNat_of_zero_le hnum
    rw [hm]
    rw [show ((m : ℤ)).toNat = m from Int.toNat_natCast m, ← Int.natCast_div,
      Int.toNat_natCast]
  · have hnum : q.num < 0 := Rat.num_neg.2 hq
    rw [ratFloorNat, Nat.floor_of_nonpos hq.le,
      Int.toNat_of_nonpos hnum.le, Nat.zero_div]

theorem countP_add_countP_le_length {α : Type} (l : List α) (p q : α → Bool)
    (h : ∀ x ∈ l, ¬(p x = true ∧ q x = true)) :
    l.countP p + l.countP q ≤ l.length := by
  induction l with
  | nil => simp
  | cons a t ih =>
    have ht : ∀ x ∈ t, ¬(p x = true ∧ q x = true) := fun x hx => h x (by simp [hx])
    have hhead := h a (by simp)
    by_cases hp : p a
    · have hq : ¬ q a := fun hqa => hhead ⟨hp, hqa⟩
      rw [List.countP_cons_of_pos _ _ hp, List.countP_cons_of_neg _ _ hq]
      simpa [Nat.add_assoc, Nat.add_comm, Nat.add_left_comm] using
        Nat.add_le_add_right (ih ht) 1
    · rw [List.countP_cons_of_neg _ _ hp]
      by_cases hq : q a
      · rw [List.countP_cons_of_pos _ _ hq]
        simpa [Nat.add_assoc] using Nat.add_le_add_right (ih ht) 1
      · rw [List.countP_cons_of_neg _ _ hq]
        exact (ih ht).trans (by simp)

theorem allPairsOf_length (a b : List ℚ) :
    (allPairsOf a b).length = a.length * b.length := by
  unfold allPairsOf
  rw [List.flatMap, List.length_flatten, List.map_map]
  have hmap : (List.map (List.length ∘ fun x1 => b.map fun x2 => (x1, x2)) a)
      = List.map (fun _ => b.length) a :=
    List.map_congr_left fun x _ => by simp [Function.comp]
  rw [hmap, List.map_const', List.sum_replicate, smul_eq_mul, Nat.mul_comm]

theorem countP_allPairsOf (a b : List ℚ) (p : ℚ × ℚ → Bool) :
    (allPairsOf a b).countP p = (a.map fun x => b.countP fun y => p (x, y)).sum := by
  unfold allPairsOf
  rw [List.flatMap, List.countP_flatten, List.map_map]
  refine congrArg List.sum (List.map_congr_left fun x _ => ?_)
  show List.countP p (List.map (fun x2 => (x, x2)) b) = _
  rw [List.countP_map]
  rfl

/-! ## Claim C5 — Cliff's delta formula, range and dominance -/

/-- Claim C5: for every pair of non-empty groups A and B, `cliffs_delta`
returns exactly (number of pairs with a > b minus number with a < b)
divided by |A| * |B| over the full Cartesian product (shown as equality
with the spec-side `cliffsDeltaSpec`), the returned value lies in
[-1, 1], and when every value of A exceeds every value of B (A tending
to exceed B in the strongest sense) the value is the positive extreme 1. -/
theorem cliffs_delta_spec_range (a b : List ℚ) (ha : a ≠ []) (hb : b ≠ []) :
    cliffs_delta a b = cliffsDeltaSpec a b ∧
    (-1 : ℚ) ≤ cliffs_delta a b ∧ cliffs_delta a b ≤ 1 ∧
    ((∀ x ∈ a, ∀ y ∈ b, y < x) → cliffs_delta a b = 1) := by
  have hna : 0 < a.length := List.length_pos.2 ha
  have hnb : 0 < b.length := List.length_pos.2 hb
  have hden : (0 : ℚ) < (a.length : ℚ) * (b.length : ℚ) := by
    have : (0 : ℚ) < (a.length : ℚ) := by exact_mod_cast hna
    have h2 : (0 : ℚ) < (b.length : ℚ) := by exact_mod_cast hnb
    positivity
  have hgt : (allPairsOf a b).countP (fun p => p.1 > p.2)
      = (a.map fun x => b.countP fun y => y < x).sum := by
    rw [countP_allPairsOf]
  have hlt : (allPairsOf a b).countP (fun p => p.1 < p.2)
      = (a.map fun x => b.countP fun y => x < y).sum := by
    rw [countP_allPairsOf]
  have hformula : cliffs_delta a b = cliffsDeltaSpec a b := by
    rw [cliffs_delta, cliffsDeltaSpec, Rat.divInt_eq_div, ← hgt, ← hlt]
    push_cast
    ring
  have hsum_le : (allPairsOf a b).countP (fun p => p.1 > p.2)
      + (allPairsOf a b).countP (fun p => p.1 < p.2) ≤ a.length * b.length := by
    rw [← allPairsOf_length a b]
    refine countP_add_countP_le_length _ _ _ ?_
    intro x _ hx
    have h1 : x.2 < x.1 := of_decide_eq_true hx.1
    have h2 : x.1 < x.2 := of_decide_eq_true hx.2
    exact absurd (h1.trans h2) (lt_irrefl _)
  have hval : cliffs_delta a b
      = (((allPairsOf a b).countP fun p => p.1 > p.2 : ℚ)
        - ((allPairsOf a b).countP fun p => p.1 < p.2 : ℚ))
        / ((a.length : ℚ) * (b.length : ℚ)) := by
    rw [cliffs_delta, Rat.divInt_eq_div]
    push_cast
    ring
  constructor
  · exact hformula
  refine ⟨?_, ?_, ?_⟩
  · rw [hval, le_div_iff₀ hden]
    have hle : ((allPairsOf a b).countP fun p => p.1 < p.2 : ℚ)
        ≤ (a.length : ℚ) * (b.length : ℚ) := by
      have := hsum_le
      have h2 : ((allPairsOf a b).countP fun p => p.1 < p.2) ≤ a.length * b.length :=
        le_trans (Nat.le_add_left _ _) this
      exact_mod_cast h2
    have hge : (0 : ℚ) ≤ ((allPairsOf a b).countP fun p => p.1 > p.2 : ℚ) := by
      positivity
    linarith
  · rw [hval, div_le_one hden]
    have hle : ((allPairsOf a b).countP fun p => p.1 > p.2 : ℚ)
        ≤ (a.length : ℚ) * (b.length : ℚ) := by
      have h2 : ((allPairsOf a b).countP fun p => p.1 > p.2) ≤ a.length * b.length :=
        le_trans (Nat.le_add_right _ _) hsum_le
      exact_mod_cast h2
    have hge : (0 : ℚ) ≤ ((allPairsOf a b).countP fun p => p.1 < p.2 : ℚ) := by
      positivity
    linarith
  · intro hdom
    have hgt_all : (allPairsOf a b).countP (fun p => p.1 > p.2)
        = (allPairsOf a b).length := by
      rw [List.countP_eq_length]
      intro x hx
      unfold allPairsOf at hx
      simp only [List.mem_flatMap, List.mem_map] at hx
      obtain ⟨u, hu, y, hy, hxy⟩ := hx
      subst hxy
      exact decide_eq_true (hdom u hu y hy)
    have hlt_none : (allPairsOf a b).countP (fun p => p.1 < p.2) = 0 := by
      rw [List.countP_eq_zero]
      intro x hx
      unfold allPairsOf at hx
      simp only [List.mem_flatMap, List.mem_map] at hx
      obtain ⟨u, hu, y, hy, hxy⟩ := hx
      subst hxy
      simpa using (hdom u hu y hy).not_lt
    rw [hval, hgt_all, hlt_none, allPairsOf_length]
    push_cast
    rw [sub_zero, div_self hden.ne']

/-- Witness for C5 at A = [1, 2], B = [3, 4] and at the dominance input
A = [5, 6], B = [1, 2]. -/
theorem cliffs_delta_spec_range_witness :
    (cliffs_delta [1, 2] [3, 4] = cliffsDeltaSpec [1, 2] [3, 4] ∧
      (-1 : ℚ) ≤ cliffs_delta [1, 2] [3, 4] ∧ cliffs_delta [1, 2] [3, 4] ≤ 1 ∧
      ((∀ x ∈ ([1, 2] : List ℚ), ∀ y ∈ ([3, 4] : List ℚ), y < x) →
        cliffs_delta [1, 2] [3, 4] = 1)) ∧
    cliffs_delta [5, 6] [1, 2] = 1 := by
  constructor
  · exact cliffs_delta_spec_range [1, 2] [3, 4] (by decide) (by decide)
  · exact (cliffs_delta_spec_range [5, 6] [1, 2] (by decide) (by decide)).2.2.2
      (by decide)

/-! ## Claim C1 — which scripts Bonferroni-adjust the Dunn p-values -/

/-- Claim C1 counterexample: `Statistical_analysis_HighGasUsed.py`
(line 143) calls `posthoc_dunn` with no `p_adjust`, so the pairwise
p-values its table reports are the raw Dunn p-values, not
Bonferroni-corrected ones: with every raw pairwise p-value 1/100, the
significant branch's table rows carry 1/100 while the Bonferroni
correction across the 10 comparisons would give 1/10. -/
theorem hg_posthoc_unadjusted_cx :
    ((statAnalysisFeatureStep (mkRat 1 100) (fun _ => [])
        (fun _ _ => mkRat 1 100)).getD []).map PairRow.pval
      = List.replicate 10 (mkRat 1 100) ∧
    bonferroniAdjust allQPairs.length (mkRat 1 100) = mkRat 1 10 ∧
    mkRat 1 100 ≠ mkRat 1 10 := by
  decide

/-- Claim C1 (amended): the Dunn post-hoc p-values are Bonferroni
corrected with factor equal to the total comparison count (10, the
length of the fixed pair enumeration), clipped at 1, in the scripts that
pass `p_adjust=bonferroni` (`Latency_addition+selection_analysis_Phase1.py`
line 159, `Latency_breach_penalty_analysis_Phase2.py` line 180,
`Latency_analysis_each_function.py` line 146); the two
`Statistical_analysis_*.py` scripts call Dunn with the default
`p_adjust=None` and report the raw p-values unchanged. -/
theorem posthoc_pvalue_adjustment (raw : Fin 5 → Fin 5 → ℚ) (i j : Fin 5)
    (hij : i ≠ j) :
    allQPairs.length = 10 ∧
    dunnPosthocMatrix raw true i j = min 1 (10 * raw i j) ∧
    dunnPosthocMatrix raw false i j = raw i j := by
  have h10 : allQPairs.length = 10 := by decide
  refine ⟨h10, ?_, ?_⟩
  · simp only [dunnPosthocMatrix, if_neg hij, if_pos rfl, bonferroniAdjust,
      rMul_eq, h10]
    norm_num
  · simp [dunnPosthocMatrix, hij]

/-- Witness for C1's amended theorem at the pair (Q1, Q2) and the
constant raw matrix 1/100. -/
theorem posthoc_pvalue_adjustment_witness :
    allQPairs.length = 10 ∧
    dunnPosthocMatrix (fun _ _ => mkRat 1 100) true 0 1
      = min 1 (10 * mkRat 1 100) ∧
    dunnPosthocMatrix (fun _ _ => mkRat 1 100) false 0 1 = mkRat 1 100 :=
  posthoc_pvalue_adjustment (fun _ _ => mkRat 1 100) 0 1 (by decide)

/-! ## Claim C2 — significance gating of the post-hoc step -/

/-- Claim C2 counterexample: in `Latency_analysis_each_function.py` the
post-hoc Dunn test is invoked unconditionally after every Kruskal-Wallis
test (lines 165-170): even with an omnibus p-value of 1 (realised e.g.
by five identical groups), the script's output stream contains a Dunn
post-hoc table. -/
theorem eachfn_posthoc_unconditional_cx :
    ¬ ((1 : ℚ) < alpha) ∧
    ((eachFunctionColumnEvents 1 (fun _ _ => mkRat 1 2)).any
      AnalysisEvent.isDunnTable) = true := by
  exact ⟨by decide, rfl⟩

/-- Claim C2 (amended): the post-hoc step is gated on omnibus
significance (p < 0.05) in `Statistical_analysis_HighGasUsed.py`
(line 135, identically in `Statistical_analysis_LowGasUsed.py`
line 185), in `build_report` of
`Latency_addition+selection_analysis_Phase1.py` (line 346) and in
`analyze_factor` of `Latency_breach_penalty_analysis_Phase2.py`
(line 167): when the omnibus p-value is at least 0.05 these scripts
produce no pairwise comparisons; `Latency_analysis_each_function.py`
runs Dunn unconditionally. -/
theorem significance_gate (pval : ℚ) (groups : Fin 5 → List ℚ)
    (raw : Fin 5 → Fin 5 → ℚ) (h : alpha ≤ pval) :
    statAnalysisFeatureStep pval groups raw = none ∧
    phase1BuildReportFactor pval groups raw = none ∧
    analyzeFactorPosthoc pval groups raw = none := by
  have hn : ¬ pval < alpha := not_lt.2 h
  refine ⟨?_, ?_, ?_⟩
  · rw [statAnalysisFeatureStep, if_neg hn]
  · rw [phase1BuildReportFactor, if_neg hn]
  · rw [analyzeFactorPosthoc, if_neg hn]

/-- Witness for C2's amended theorem at p-value 1. -/
theorem significance_gate_witness :
    alpha ≤ (1 : ℚ) ∧
    (statAnalysisFeatureStep 1 (fun _ => []) (fun _ _ => 1) = none ∧
     phase1BuildReportFactor 1 (fun _ => []) (fun _ _ => 1) = none ∧
     analyzeFactorPosthoc 1 (fun _ => []) (fun _ _ => 1) = none) :=
  ⟨by decide, significance_gate 1 (fun _ => []) (fun _ _ => 1) (by decide)⟩

/-! ## Claim C4 — effect sizes for non-significant pairs -/

/-- Claim C4 counterexample: in `analyze_factor` of
`Latency_breach_penalty_analysis_Phase2.py` (lines 187-205) Cliff's
delta is computed and reported for every pair regardless of the pair's
corrected p-value: with a significant omnibus test, raw pairwise
p-values of 1/10 (so corrected p-value 1, not significant) and
single-element groups [Qi] = [i], the first table row is
(Q1, Q2, p = 1, delta = -1, significant = no) — a computed delta, not a
"not applicable" marker, on a non-significant pair. -/
theorem phase2_delta_nonsignificant_cx :
    ((analyzeFactorPosthoc (mkRat 1 100) (fun i => [((i : ℕ) : ℚ)])
        (fun _ _ => mkRat 1 10)).getD []).head?
      = some ⟨0, 1, 1, -1, false⟩ ∧
    ¬ ((1 : ℚ) < alpha) := by
  decide

/-- Claim C4 (amended): in the two `Statistical_analysis_*.py` scripts a
pair with p-value not below 0.05 is reported with the "Not significant"
marker and its Cliff's delta is not computed, while a pair below 0.05
carries the computed delta; `produce_posthoc_cliffs_table` of the Phase1
script reports the same way but computes the delta unconditionally
before discarding it; `analyze_factor` of the Phase2 script computes
and reports a delta for every pair, with only a Yes/No flag marking
significance. -/
theorem effect_size_reporting (groups : Fin 5 → List ℚ)
    (raw : Fin 5 → Fin 5 → ℚ) (kwP : ℚ) (hkw : kwP < alpha) :
    (∀ row ∈ statAnalysisComparisons groups (dunnPosthocMatrix raw false),
      (row.pval < alpha →
        row.effect = .value (cliffs_delta (groups row.i) (groups row.j))) ∧
      (¬ row.pval < alpha → row.effect = .notSignificant)) ∧
    (∀ row ∈ producePosthocCliffsTable groups raw,
      (row.pval < alpha →
        row.effect = .value (cliffs_delta (groups row.i) (groups row.j))) ∧
      (¬ row.pval < alpha → row.effect = .notSignificant)) ∧
    (∀ row ∈ (analyzeFactorPosthoc kwP groups raw).getD [],
      row.delta = cliffs_delta (groups row.i) (groups row.j)) := by
  refine ⟨?_, ?_, ?_⟩
  · intro row hrow
    rw [statAnalysisComparisons] at hrow
    obtain ⟨ij, _, hfr⟩ := List.mem_map.1 hrow
    by_cases h : dunnPosthocMatrix raw false ij.1 ij.2 < alpha
    · simp only [if_pos h] at hfr
      subst hfr
      exact ⟨fun _ => rfl, fun hc => absurd h hc⟩
    · simp only [if_neg h] at hfr
      subst hfr
      exact ⟨fun hc => absurd hc h, fun _ => rfl⟩
  · intro row hrow
    rw [producePosthocCliffsTable] at hrow
    obtain ⟨ij, _, hfr⟩ := List.mem_map.1 hrow
    by_cases h : dunnPosthocMatrix raw true ij.1 ij.2 < alpha
    · simp only [if_pos h] at hfr
      subst hfr
      exact ⟨fun _ => rfl, fun hc => absurd h hc⟩
    · simp only [if_neg h] at hfr
      subst hfr
      exact ⟨fun hc => absurd hc h, fun _ => rfl⟩
  · intro row hrow
    rw [analyzeFactorPosthoc, if_pos hkw] at hrow
    simp only [Option.getD_some] at hrow
    obtain ⟨ij, _, hfr⟩ := List.mem_map.1 hrow
    subst hfr
    rfl

/-- Witness for C4's amended theorem at a significant omnibus p-value,
singleton groups and the constant raw matrix 1/10. -/
theorem effect_size_reporting_witness :
    (mkRat 1 100 < alpha) ∧
    ((∀ row ∈ statAnalysisComparisons (fun i => [((i : ℕ) : ℚ)])
        (dunnPosthocMatrix (fun _ _ => mkRat 1 10) false),
      (row.pval < alpha →
        row.effect = .value (cliffs_delta ((fun i => [((i : ℕ) : ℚ)]) row.i)
          ((fun i => [((i : ℕ) : ℚ)]) row.j))) ∧
      (¬ row.pval < alpha → row.effect = .notSignificant)) ∧
    (∀ row ∈ producePosthocCliffsTable (fun i => [((i : ℕ) : ℚ)])
        (fun _ _ => mkRat 1 10),
      (row.pval < alpha →
        row.effect = .value (cliffs_delta ((fun i => [((i : ℕ) : ℚ)]) row.i)
          ((fun i => [((i : ℕ) : ℚ)]) row.j))) ∧
      (¬ row.pval < alpha → row.effect = .notSignificant)) ∧
    (∀ row ∈ (analyzeFactorPosthoc (mkRat 1 100) (fun i => [((i : ℕ) : ℚ)])
        (fun _ _ => mkRat 1 10)).getD [],
      row.delta = cliffs_delta ((fun i => [((i : ℕ) : ℚ)]) row.i)
        ((fun i => [((i : ℕ) : ℚ)]) row.j))) :=
  ⟨by decide, effect_size_reporting (fun i => [((i : ℕ) : ℚ)])
    (fun _ _ => mkRat 1 10) (mkRat 1 100) (by decide)⟩

/-! ## Quintile binner lemmas -/

theorem ratFloorNat_mkRat (a b : ℕ) :
    ratFloorNat (mkRat (a : ℤ) b) = a / b := by
  rw [ratFloorNat_eq, Rat.mkRat_eq_div]
  have hcast : (((a : ℤ) : ℚ)) = ((a : ℕ) : ℚ) := by push_cast; ring
  rw [hcast, Nat.floor_div_nat, Nat.floor_natCast]

theorem quantileIdx_const (v : List ℚ) (c : ℚ) (hv : ∀ x ∈ v, x = c)
    (hne : v ≠ []) (i : ℕ) (hi : i ≤ 5) : quantileIdx v i = c := by
  have hlen : 0 < v.length := List.length_pos.2 hne
  have hk : ratFloorNat (mkRat ((i * (v.length - 1) : ℕ) : ℤ) 5)
      = (i * (v.length - 1)) / 5 := ratFloorNat_mkRat _ 5
  have hkle : (i * (v.length - 1)) / 5 ≤ v.length - 1 := by
    calc (i * (v.length - 1)) / 5 ≤ (5 * (v.length - 1)) / 5 :=
          Nat.div_le_div_right (Nat.mul_le_mul_right _ hi)
      _ = v.length - 1 := Nat.mul_div_cancel_left _ (by norm_num)
  have hklt : (i * (v.length - 1)) / 5 < v.length := lt_of_le_of_lt hkle
    (by omega)
  have ha : v.getD ((i * (v.length - 1)) / 5) 0 = c := by
    rw [List.getD_eq_getElem v 0 hklt]
    exact hv _ (v.getElem_mem hklt)
  have hb : v.getD ((i * (v.length - 1)) / 5 + 1) c = c := by
    by_cases hlt : (i * (v.length - 1)) / 5 + 1 < v.length
    · rw [List.getD_eq_getElem v c hlt]
      exact hv _ (v.getElem_mem hlt)
    · exact List.getD_eq_default v c (by omega)
  simp only [quantileIdx]
  rw [hk, ha, hb, show rSub c c = 0 from by rw [rSub_eq, sub_self],
    rMul_eq, mul_zero, rAdd_eq, add_zero]

/-- The six quantile edges of a constant column coincide, so `qcut5`
takes the duplicate-edges error path. -/
theorem qcut5_constant_eq_none (xs : List ℚ) (c : ℚ) (hne : xs ≠ [])
    (hc : ∀ x ∈ xs, x = c) : qcut5 xs = none := by
  have hperm : List.Perm (sortAsc xs) xs := List.perm_insertionSort _ xs
  have hvne : sortAsc xs ≠ [] := by
    intro h
    exact hne (List.eq_nil_of_length_eq_zero (by
      rw [← hperm.length_eq, h]; rfl))
  have hvc : ∀ x ∈ sortAsc xs, x = c := fun x hx => hc x (hperm.mem_iff.1 hx)
  have hedges : qedges xs = [c, c, c, c, c, c] := by
    rw [qedges]
    simp only [quantileIdx_const (sortAsc xs) c hvc hvne 0 (by norm_num),
      quantileIdx_const (sortAsc xs) c hvc hvne 1 (by norm_num),
      quantileIdx_const (sortAsc xs) c hvc hvne 2 (by norm_num),
      quantileIdx_const (sortAsc xs) c hvc hvne 3 (by norm_num),
      quantileIdx_const (sortAsc xs) c hvc hvne 4 (by norm_num),
      quantileIdx_const (sortAsc xs) c hvc hvne 5 (by norm_num)]
  have hempty : xs.isEmpty = false := by
    cases xs with
    | nil => exact absurd rfl hne
    | cons a t => rfl
  rw [qcut5, hempty, hedges]
  simp

/-! ## Claim C6 — behaviour on few distinct values -/

/-- Claim C6 counterexample: a covariate with 4 (< 5) distinct values,
[1, 2, 3, 4], does not fail — `qcut5` succeeds (with quintile Q3 left
empty); and a covariate with exactly 5 distinct values,
[1,1,1,1,1,1,2,3,4,5], fails with the duplicate-edges data error
instead of producing 5 non-empty bins. -/
theorem qcut5_distinct_count_cx :
    (distinctCount [1, 2, 3, 4] < 5 ∧
      qcut5 [1, 2, 3, 4] = some [0, 1, 3, 4] ∧
      (2 : Fin 5) ∉ ([0, 1, 3, 4] : List (Fin 5))) ∧
    (distinctCount [1, 1, 1, 1, 1, 1, 2, 3, 4, 5] = 5 ∧
      qcut5 [1, 1, 1, 1, 1, 1, 2, 3, 4, 5] = none) := by
  decide

/-- Claim C6 (amended): the Quintile Binner fails exactly when the six
computed quantile edges contain duplicates; a constant covariate (a
single distinct value) therefore always fails with the data error,
but a covariate with fewer than 5 distinct values can succeed (with
empty bins) and one with exactly 5 distinct values can fail under
heavy ties. -/
theorem qcut5_single_value_fails (xs : List ℚ) (c : ℚ) (hne : xs ≠ [])
    (hc : ∀ x ∈ xs, x = c) : qcut5 xs = none :=
  qcut5_constant_eq_none xs c hne hc

/-- Witness for C6's amended theorem at the spec's §8 scenario, the
constant column [5, 5, 5, 5, 5]. -/
theorem qcut5_single_value_fails_witness :
    (([5, 5, 5, 5, 5] : List ℚ) ≠ [] ∧
      ∀ x ∈ ([5, 5, 5, 5, 5] : List ℚ), x = 5) ∧
    qcut5 [5, 5, 5, 5, 5] = none :=
  ⟨⟨by decide, by decide⟩,
    qcut5_single_value_fails [5, 5, 5, 5, 5] 5 (by decide) (by decide)⟩

/-! ## Claim C3 — bin balance -/

/-- Claim C3 counterexample: on the tied input
[1, 2, 2, 2, 3, 4, 5, 6, 7, 8] the binner succeeds but puts 4 records
in Q1 and 0 records in Q2 — two bin sizes differing by more than 1, so
the balance property fails on inputs with tied covariate values. -/
theorem qcut5_tied_unbalanced_cx :
    qcut5 [1, 2, 2, 2, 3, 4, 5, 6, 7, 8]
      = some [0, 0, 0, 0, 2, 2, 3, 3, 4, 4] ∧
    ([0, 0, 0, 0, 2, 2, 3, 3, 4, 4] : List (Fin 5)).countP (· == 0) = 4 ∧
    ([0, 0, 0, 0, 2, 2, 3, 3, 4, 4] : List (Fin 5)).countP (· == 1) = 0 ∧
    ¬ ((4 : ℕ) ≤ 0 + 1) := by
  decide

/-! ## Claim C7 — inner-join law and missing-field handling -/

theorem filter_hash_length (lats : List LatRow) (k : Option ℕ)
    (hnd : (lats.map LatRow.hash).Nodup) :
    (lats.filter fun l => l.hash = k).length
      = if lats.any fun l => l.hash = k then 1 else 0 := by
  induction lats with
  | nil => simp
  | cons l t ih =>
    rw [List.map_cons, List.nodup_cons] at hnd
    by_cases h : l.hash = k
    · have hnone : t.filter (fun l => l.hash = k) = [] := by
        rw [List.filter_eq_nil_iff]
        intro x hx hxk
        exact hnd.1 (h ▸ (of_decide_eq_true hxk) ▸ List.mem_map_of_mem LatRow.hash hx)
      rw [List.filter_cons_of_pos (by simpa using h), hnone]
      simp [List.any_cons, h]
    · rw [List.filter_cons_of_neg (by simpa using h), ih hnd.2]
      simp [List.any_cons, h]

theorem mergeInnerOnHash_length (blocks : List BlockRow) (lats : List LatRow)
    (hl : (lats.map LatRow.hash).Nodup) :
    (mergeInnerOnHash blocks lats).length
      = blocks.countP fun b => lats.any fun l => l.hash = b.hash := by
  induction blocks with
  | nil => rfl
  | cons b bs ih =>
    rw [mergeInnerOnHash, List.flatMap_cons, List.length_append,
      List.length_map, ← mergeInnerOnHash, ih, List.countP_cons,
      filter_hash_length lats b.hash hl]
    by_cases h : lats.any fun l => l.hash = b.hash
    · simp [h, Nat.add_comm]
    · simp [h]

/-- Claim C7 counterexample: `process_service_data` of
`Statistical_analysis_HighGasUsed.py` applies no `.dropna()` after the
inner merge (line 43), so a block row with a present hash but missing
gas price survives into the merged table: the merged row
(hash 1, gas price missing, latency 2) is kept although it contains a
missing field. -/
theorem hg_merge_keeps_incomplete_cx :
    processServiceDataHG [⟨some 1, none⟩] [⟨some 1, some 2⟩]
      = [⟨some 1, none, some 2⟩] ∧
    mergedRowComplete ⟨some 1, none, some 2⟩ = false := by
  decide

/-- Claim C7 (amended): with join keys unique on both sides, the inner
merge yields exactly one merged record per left row that has a partner
(the inner-join cardinality law, shared by both scripts), and rows
lacking a join partner are dropped; rows containing a missing non-key
field are additionally dropped in
`Latency_addition+selection_analysis_Phase1.py` (post-merge `.dropna()`,
line 54), while `Statistical_analysis_HighGasUsed.py` keeps them (its
only dropna is on the latency files' transaction-hash column). -/
theorem inner_join_law (blocks : List BlockRow) (lats : List LatRow)
    (hb : (blocks.map BlockRow.hash).Nodup)
    (hl : (lats.map LatRow.hash).Nodup) :
    (mergeInnerOnHash blocks lats).length
      = blocks.countP (fun b => lats.any fun l => l.hash = b.hash) ∧
    ∀ r ∈ processServiceDataPhase1 blocks lats, mergedRowComplete r = true := by
  refine ⟨mergeInnerOnHash_length blocks lats hl, ?_⟩
  intro r hr
  exact List.of_mem_filter hr

/-- Witness for C7's amended theorem: three block rows with unique
hashes 1, 2, 3 against latency rows with unique hashes 1, 3, 9 — the
two matching block rows yield exactly two merged records. -/
theorem inner_join_law_witness :
    ((([⟨some 1, some 5⟩, ⟨some 2, some 6⟩, ⟨some 3, none⟩] : List BlockRow).map
        BlockRow.hash).Nodup ∧
      (([⟨some 1, some 7⟩, ⟨some 3, some 8⟩, ⟨some 9, some 1⟩] : List LatRow).map
        LatRow.hash).Nodup) ∧
    ((mergeInnerOnHash [⟨some 1, some 5⟩, ⟨some 2, some 6⟩, ⟨some 3, none⟩]
        [⟨some 1, some 7⟩, ⟨some 3, some 8⟩, ⟨some 9, some 1⟩]).length
      = ([⟨some 1, some 5⟩, ⟨some 2, some 6⟩, ⟨some 3, none⟩] : List BlockRow).countP
          (fun b => ([⟨some 1, some 7⟩, ⟨some 3, some 8⟩, ⟨some 9, some 1⟩] : List LatRow).any
            fun l => l.hash = b.hash) ∧
      ∀ r ∈ processServiceDataPhase1
          [⟨some 1, some 5⟩, ⟨some 2, some 6⟩, ⟨some 3, none⟩]
          [⟨some 1, some 7⟩, ⟨some 3, some 8⟩, ⟨some 9, some 1⟩],
        mergedRowComplete r = true) :=
  ⟨⟨by decide, by decide⟩,
    inner_join_law _ _ (by decide) (by decide)⟩

/-! ## Claim C9 — loader deduplication policy -/

theorem filter_head?_eq_find? {α : Type} (p : α → Bool) (l : List α) :
    (l.filter p).head? = l.find? p := by
  induction l with
  | nil => rfl
  | cons a t ih =>
    by_cases h : p a
    · rw [List.filter_cons_of_pos h, List.find?_cons_of_pos t h]
      rfl
    · rw [List.filter_cons_of_neg h, List.find?_cons_of_neg t h]
      exact ih

/-- Claim C9 counterexample: `groupby([Iteration, UserIndex]).first()`
takes the first non-null value per column, not the first row: on two
rows with the same key (1,1), the first with a missing latency, the
output row mixes the second row's latency with the first row's other
column and equals neither input row — in particular not the first-seen
row. -/
theorem groupby_first_mixes_columns_cx :
    groupFirstByKey [⟨1, 1, none, some 10⟩, ⟨1, 1, some 7, some 20⟩]
      = [⟨1, 1, some 7, some 10⟩] ∧
    (⟨1, 1, some 7, some 10⟩ : IdxRow) ∉
      ([⟨1, 1, none, some 10⟩, ⟨1, 1, some 7, some 20⟩] : List IdxRow) := by
  decide

/-- Claim C9 (amended): the index-based loader keeps exactly one record
per distinct (Iteration, UserIndex) key; each output field is the first
non-missing value of that field within the group, which coincides with
the group's first-seen row whenever the group's rows have no missing
values — so first-seen-wins holds on complete data, but rows with
missing cells are combined column-wise instead of discarded whole. -/
theorem groupby_first_seen_on_complete (rows : List IdxRow)
    (hc : ∀ r ∈ rows, idxRowComplete r = true) :
    ((groupFirstByKey rows).map idxKey).Nodup ∧
    (groupFirstByKey rows).length = (rows.map idxKey).dedup.length ∧
    ∀ r0 ∈ groupFirstByKey rows,
      rows.find? (fun r => idxKey r = idxKey r0) = some r0 := by
  have hperm : List.Perm (sortedKeysOf rows) (rows.map idxKey).dedup :=
    List.perm_insertionSort _ _
  have hkeys : (groupFirstByKey rows).map idxKey = sortedKeysOf rows := by
    rw [groupFirstByKey, List.map_map]
    exact (List.map_congr_left fun k _ => rfl).trans (List.map_id _)
  refine ⟨?_, ?_, ?_⟩
  · rw [hkeys]
    exact hperm.nodup_iff.2 (List.nodup_dedup _)
  · rw [groupFirstByKey, List.length_map]
    exact hperm.length_eq
  · intro r0 hr0
    rw [groupFirstByKey] at hr0
    obtain ⟨k, hk, hfr⟩ := List.mem_map.1 hr0
    have hkmem : k ∈ rows.map idxKey :=
      (List.mem_dedup).1 (hperm.mem_iff.1 hk)
    obtain ⟨r1, hr1mem, hr1key⟩ := List.mem_map.1 hkmem
    have hfind : rows.find? (fun r => idxKey r = k)
        = (rows.filter fun r => idxKey r = k).head? :=
      (filter_head?_eq_find? _ rows).symm
    have hne : rows.filter (fun r => idxKey r = k) ≠ [] := by
      intro hnil
      have := List.filter_eq_nil_iff.1 hnil r1 hr1mem
      simp [hr1key] at this
    obtain ⟨a, t, hat⟩ := List.exists_cons_of_ne_nil hne
    have hamem : a ∈ rows := List.mem_of_mem_filter (hat ▸ List.mem_cons_self a t)
    have hakey : idxKey a = k := by
      have := List.of_mem_filter (hat ▸ List.mem_cons_self a t)
      exact of_decide_eq_true this
    have hacomp := hc a hamem
    rw [idxRowComplete, Bool.and_eq_true] at hacomp
    obtain ⟨v1, hv1⟩ := Option.isSome_iff_exists.1 hacomp.1
    obtain ⟨v2, hv2⟩ := Option.isSome_iff_exists.1 hacomp.2
    have hlat : firstSomeField (fun r => r.lat) (rows.filter fun r => idxKey r = k)
        = a.lat := by
      rw [firstSomeField, hat, List.filterMap_cons_some hv1]
      simp [hv1]
    have hextra : firstSomeField (fun r => r.extra) (rows.filter fun r => idxKey r = k)
        = a.extra := by
      rw [firstSomeField, hat, List.filterMap_cons_some hv2]
      simp [hv2]
    have hr0eq : r0 = a := by
      rw [← hfr]
      cases a with
      | mk ai au al ae =>
        have h1 : k.1 = ai := by
          rw [← hakey]
          rfl
        have h2 : k.2 = au := by
          rw [← hakey]
          rfl
        simp only [hlat, hextra, h1, h2]
    have hkey0 : idxKey r0 = k := by
      rw [hr0eq, hakey]
    rw [hkey0, hfind, hat, hr0eq]
    rfl

/-- Witness for C9's amended theorem on three complete rows with a
duplicated key (1,1). -/
theorem groupby_first_seen_on_complete_witness :
    (∀ r ∈ ([⟨1, 1, some 3, some 4⟩, ⟨1, 1, some 5, some 6⟩,
        ⟨2, 1, some 7, some 8⟩] : List IdxRow), idxRowComplete r = true) ∧
    (((groupFirstByKey [⟨1, 1, some 3, some 4⟩, ⟨1, 1, some 5, some 6⟩,
        ⟨2, 1, some 7, some 8⟩]).map idxKey).Nodup ∧
      (groupFirstByKey [⟨1, 1, some 3, some 4⟩, ⟨1, 1, some 5, some 6⟩,
        ⟨2, 1, some 7, some 8⟩]).length
        = (([⟨1, 1, some 3, some 4⟩, ⟨1, 1, some 5, some 6⟩,
            ⟨2, 1, some 7, some 8⟩] : List IdxRow).map idxKey).dedup.length ∧
      ∀ r0 ∈ groupFirstByKey [⟨1, 1, some 3, some 4⟩, ⟨1, 1, some 5, some 6⟩,
          ⟨2, 1, some 7, some 8⟩],
        ([⟨1, 1, some 3, some 4⟩, ⟨1, 1, some 5, some 6⟩,
          ⟨2, 1, some 7, some 8⟩] : List IdxRow).find?
            (fun r => idxKey r = idxKey r0) = some r0) :=
  ⟨by decide, groupby_first_seen_on_complete _ (by decide)⟩

/-! ## Claim C10 — index-based positional merge -/

theorem indexBasedMerge_cons_complete (bl : BlockRowIx) (l : LatRowIx)
    (bs : List BlockRowIx) (ls : List LatRowIx)
    (hb : blockIxComplete bl = true) (hlc : latIxComplete l = true) :
    indexBasedMerge (bl :: bs) (l :: ls) = (bl, l) :: indexBasedMerge bs ls := by
  simp [indexBasedMerge, zipPad, List.filterMap_cons, hb, hlc]

theorem indexBasedMerge_nil_right (gas : List BlockRowIx) :
    indexBasedMerge gas [] = [] := by
  induction gas with
  | nil => simp [indexBasedMerge, zipPad]
  | cons b bs ih =>
    simp only [indexBasedMerge, zipPad, List.filterMap_cons] at ih ⊢
    exact ih

theorem zip_getElem? {α β : Type} (l1 : List α) (l2 : List β) (i : ℕ)
    (a : α) (b : β) (h1 : l1[i]? = some a) (h2 : l2[i]? = some b) :
    (l1.zip l2)[i]? = some (a, b) := by
  induction l1 generalizing l2 i with
  | nil => simp at h1
  | cons x t ih =>
    cases l2 with
    | nil => simp at h2
    | cons y s =>
      cases i with
      | zero =>
        simp only [List.getElem?_cons_zero, Option.some.injEq] at h1 h2
        simp [List.zip_cons_cons, h1, h2]
      | succ n =>
        simp only [List.getElem?_cons_succ] at h1 h2
        simpa [List.zip_cons_cons] using ih s n h1 h2

/-- Claim C10: on complete tables the index-based merge of
`process_service_data` equals the positional zip — it has exactly
min(Ng, Nl) rows, pairs the i-th block row with the i-th latency row,
and the excess rows of the longer side are dropped by the `.dropna()`
with no error path (the embedding is a total function). -/
theorem index_merge_positional (gas : List BlockRowIx) (lats : List LatRowIx)
    (hg : ∀ b ∈ gas, blockIxComplete b = true)
    (hl : ∀ l ∈ lats, latIxComplete l = true) :
    indexBasedMerge gas lats = gas.zip lats ∧
    (indexBasedMerge gas lats).length = min gas.length lats.length ∧
    ∀ (i : ℕ) (a : BlockRowIx) (b : LatRowIx), gas[i]? = some a →
      lats[i]? = some b → (indexBasedMerge gas lats)[i]? = some (a, b) := by
  have hzip : indexBasedMerge gas lats = gas.zip lats := by
    induction gas generalizing lats with
    | nil =>
      have hnil : ∀ ls : List LatRowIx, indexBasedMerge [] ls = [] := by
        intro ls
        induction ls with
        | nil => simp [indexBasedMerge, zipPad]
        | cons y s ihs =>
          simp only [indexBasedMerge, zipPad, List.filterMap_cons] at ihs ⊢
          exact ihs
      rw [List.zip_nil_left, hnil]
    | cons bl bs ih =>
      cases lats with
      | nil =>
        rw [List.zip_nil_right]
        exact indexBasedMerge_nil_right _
      | cons l ls =>
        have hb := hg bl (List.mem_cons_self bl bs)
        have hlc := hl l (List.mem_cons_self l ls)
        have hrec := ih ls (fun x hx => hg x (List.mem_cons_of_mem bl hx))
          (fun x hx => hl x (List.mem_cons_of_mem l hx))
        rw [indexBasedMerge_cons_complete bl l bs ls hb hlc, hrec,
          List.zip_cons_cons]
  refine ⟨hzip, ?_, ?_⟩
  · rw [hzip]
    simp [List.length_zip]
  · intro i a b h1 h2
    rw [hzip]
    exact zip_getElem? gas lats i a b h1 h2

/-- Witness for C10 on a complete 2-row block table and 3-row latency
table: the merge is their zip with 2 = min 2 3 rows. -/
theorem index_merge_positional_witness :
    ((∀ b ∈ ([⟨some 1, some 2, some 3, some 4⟩,
        ⟨some 5, some 6, some 7, some 8⟩] : List BlockRowIx),
      blockIxComplete b = true) ∧
     (∀ l ∈ ([⟨some 9, some 0, some 1⟩, ⟨some 2, some 3, some 4⟩,
        ⟨some 5, some 6, some 7⟩] : List LatRowIx), latIxComplete l = true)) ∧
    (indexBasedMerge [⟨some 1, some 2, some 3, some 4⟩,
        ⟨some 5, some 6, some 7, some 8⟩]
        [⟨some 9, some 0, some 1⟩, ⟨some 2, some 3, some 4⟩,
         ⟨some 5, some 6, some 7⟩]
      = ([⟨some 1, some 2, some 3, some 4⟩,
          ⟨some 5, some 6, some 7, some 8⟩] : List BlockRowIx).zip
          [⟨some 9, some 0, some 1⟩, ⟨some 2, some 3, some 4⟩,
           ⟨some 5, some 6, some 7⟩] ∧
     (indexBasedMerge [⟨some 1, some 2, some 3, some 4⟩,
        ⟨some 5, some 6, some 7, some 8⟩]
        [⟨some 9, some 0, some 1⟩, ⟨some 2, some 3, some 4⟩,
         ⟨some 5, some 6, some 7⟩]).length = min 2 3 ∧
     ∀ (i : ℕ) (a : BlockRowIx) (b : LatRowIx),
        ([⟨some 1, some 2, some 3, some 4⟩,
        ⟨some 5, some 6, some 7, some 8⟩] : List BlockRowIx)[i]? = some a →
        ([⟨some 9, some 0, some 1⟩, ⟨some 2, some 3, some 4⟩,
          ⟨some 5, some 6, some 7⟩] : List LatRowIx)[i]? = some b →
        (indexBasedMerge [⟨some 1, some 2, some 3, some 4⟩,
            ⟨some 5, some 6, some 7, some 8⟩]
            [⟨some 9, some 0, some 1⟩, ⟨some 2, some 3, some 4⟩,
             ⟨some 5, some 6, some 7⟩])[i]? = some (a, b)) :=
  ⟨⟨by decide, by decide⟩,
    index_merge_positional _ _ (by decide) (by decide)⟩

/-! ## Claim C8 — determinism of the pipeline -/

/-- Claim C8: the pipeline (binning, omnibus H statistic, significance
gate, post-hoc effect sizes) is a pure function of the merged input
data: two runs on the same unchanged data give the same (statistic,
p-value, effect-size list) triple.  Every embedded stage is
deterministic by construction — none consults state outside the data —
so re-running is definitionally the identity; this also depends on the
tie-handling of the binner and of the midranks being deterministic,
which holds because both are functions of the value multiset only. -/
theorem pipeline_deterministic (pvalOf : ℚ → ℚ) (data : List (ℚ × ℚ))
    (r1 r2 : Option (ℚ × ℚ × List ℚ))
    (h1 : r1 = pipelineRun pvalOf data) (h2 : r2 = pipelineRun pvalOf data) :
    r1 = r2 :=
  h1.trans h2.symm

/-- Witness for C8 on the spec's §8 scenario data, together with the
concrete value of the run: H = 24, the (abstracted) p-value 1/100 passes
the gate, and all ten pairwise Cliff's deltas are -1 (each lower
quintile's latencies lie entirely below each higher quintile's). -/
theorem pipeline_deterministic_witness :
    pipelineRun (fun _ => mkRat 1 100) specScenarioData
      = pipelineRun (fun _ => mkRat 1 100) specScenarioData ∧
    pipelineRun (fun _ => mkRat 1 100) specScenarioData
      = some (24, mkRat 1 100, List.replicate 10 (-1)) :=
  ⟨pipeline_deterministic (fun _ => mkRat 1 100) specScenarioData _ _ rfl rfl,
    by decide⟩

/-! ## Claim C3 — general balance proof for distinct covariate values -/

theorem sortAsc_sorted_lt (xs : List ℚ) (hnd : xs.Nodup) :
    (sortAsc xs).Sorted (· < ·) := by
  have hle : (sortAsc xs).Sorted (· ≤ ·) := List.sorted_insertionSort _ xs
  have hnd' : (sortAsc xs).Nodup :=
    (List.perm_insertionSort _ xs).nodup_iff.2 hnd
  exact (hle.and hnd').imp fun h => lt_of_le_of_ne h.1 h.2

theorem getD_lt_of_sorted (v : List ℚ) (hs : v.Sorted (· < ·)) (i j : ℕ)
    (hij : i < j) (hj : j < v.length) : v.getD i 0 < v.getD j 0 := by
  have hi : i < v.length := lt_trans hij hj
  rw [List.getD_eq_getElem v 0 hi, List.getD_eq_getElem v 0 hj]
  have := List.pairwise_iff_get.1 hs ⟨i, hi⟩ ⟨j, hj⟩ hij
  simpa using this

theorem getD_le_of_sorted (v : List ℚ) (hs : v.Sorted (· < ·)) (i j : ℕ)
    (hij : i ≤ j) (hj : j < v.length) : v.getD i 0 ≤ v.getD j 0 := by
  rcases lt_or_eq_of_le hij with h | h
  · exact (getD_lt_of_sorted v hs i j h hj).le
  · rw [h]

/-- Counting values at most `c` in a strictly sorted list: if `v[k] ≤ c`
and (when it exists) `c < v[k+1]`, exactly the first `k + 1` entries
are at most `c`. -/
theorem countP_le_of_sorted_lt (v : List ℚ) (hs : v.Sorted (· < ·))
    (k : ℕ) (c : ℚ) (hk : k < v.length) (hak : v.getD k 0 ≤ c)
    (hup : ∀ _h : k + 1 < v.length, c < v.getD (k + 1) 0) :
    v.countP (fun x => x ≤ c) = k + 1 := by
  induction v generalizing k with
  | nil => simp at hk
  | cons a t ih =>
    have hts : t.Sorted (· < ·) := hs.of_cons
    cases k with
    | zero =>
      have ha : a ≤ c := by simpa using hak
      rw [List.countP_cons_of_pos (fun x => decide (x ≤ c)) t (decide_eq_true ha)]
      suffices hzero : t.countP (fun x => x ≤ c) = 0 by rw [hzero]
      cases t with
      | nil => rfl
      | cons b s =>
        have hcb : c < b := by simpa using hup (by simp)
        rw [List.countP_eq_zero]
        intro x hx
        have hbx : b ≤ x := by
          rcases List.mem_cons.1 hx with h | h
          · rw [h]
          · exact (List.rel_of_sorted_cons hs.of_cons x h).le
        simp only [decide_eq_true_eq]
        exact not_le.2 (lt_of_lt_of_le hcb hbx)
    | succ k' =>
      have hk't : k' < t.length := by simpa using hk
      have hak' : t.getD k' 0 ≤ c := by simpa using hak
      have hup' : ∀ _h : k' + 1 < t.length, c < t.getD (k' + 1) 0 := by
        intro h
        simpa using hup (by simpa using Nat.succ_lt_succ h)
      have hmem : t.getD k' 0 ∈ t := by
        rw [List.getD_eq_getElem t 0 hk't]
        exact t.getElem_mem hk't
      have ha : a ≤ c :=
        le_trans (List.rel_of_sorted_cons hs _ hmem).le hak'
      rw [List.countP_cons_of_pos (fun x => decide (x ≤ c)) t (decide_eq_true ha),
        ih hts k' hk't hak' hup']

theorem quantileIdx_eq_interp (v : List ℚ) (i : ℕ)
    (hk1 : (i * (v.length - 1)) / 5 + 1 < v.length) :
    quantileIdx v i
      = v.getD ((i * (v.length - 1)) / 5) 0
        + (((i * (v.length - 1) : ℕ) : ℚ) / 5
            - (((i * (v.length - 1)) / 5 : ℕ) : ℚ))
          * (v.getD ((i * (v.length - 1)) / 5 + 1) 0
            - v.getD ((i * (v.length - 1)) / 5) 0) := by
  have hb : v.getD ((i * (v.length - 1)) / 5 + 1)
        (v.getD ((i * (v.length - 1)) / 5) 0)
      = v.getD ((i * (v.length - 1)) / 5 + 1) 0 := by
    rw [List.getD_eq_getElem v _ hk1, List.getD_eq_getElem v 0 hk1]
  simp only [quantileIdx, ratFloorNat_mkRat]
  rw [hb]
  simp only [rAdd_eq, rMul_eq, rSub_eq]
  rw [Rat.mkRat_eq_div]
  push_cast
  ring

theorem quantileIdx_sandwich (v : List ℚ) (hs : v.Sorted (· < ·)) (i : ℕ)
    (hk1 : (i * (v.length - 1)) / 5 + 1 < v.length) :
    v.getD ((i * (v.length - 1)) / 5) 0 ≤ quantileIdx v i ∧
    quantileIdx v i < v.getD ((i * (v.length - 1)) / 5 + 1) 0 := by
  have hab : v.getD ((i * (v.length - 1)) / 5) 0
      < v.getD ((i * (v.length - 1)) / 5 + 1) 0 :=
    getD_lt_of_sorted v hs _ _ (Nat.lt_succ_self _) hk1
  have hcast_le : (((i * (v.length - 1)) / 5 : ℕ) : ℚ)
      ≤ ((i * (v.length - 1) : ℕ) : ℚ) / 5 := Nat.cast_div_le
  have hfrac0 : (0 : ℚ) ≤ ((i * (v.length - 1) : ℕ) : ℚ) / 5
      - (((i * (v.length - 1)) / 5 : ℕ) : ℚ) := by linarith
  have hlt5 : i * (v.length - 1) < 5 * ((i * (v.length - 1)) / 5) + 5 := by
    have h1 := Nat.div_add_mod (i * (v.length - 1)) 5
    have h2 : (i * (v.length - 1)) % 5 < 5 := Nat.mod_lt _ (by norm_num)
    omega
  have hcast_lt : ((i * (v.length - 1) : ℕ) : ℚ)
      < 5 * (((i * (v.length - 1)) / 5 : ℕ) : ℚ) + 5 := by exact_mod_cast hlt5
  have hfrac1 : ((i * (v.length - 1) : ℕ) : ℚ) / 5
      - (((i * (v.length - 1)) / 5 : ℕ) : ℚ) < 1 := by linarith
  rw [quantileIdx_eq_interp v i hk1]
  constructor
  · have := mul_nonneg hfrac0 (sub_nonneg.2 hab.le)
    linarith
  · have := mul_lt_mul_of_pos_right hfrac1 (sub_pos.2 hab)
    linarith

theorem quantileIdx_five (v : List ℚ) (hne : v ≠ []) :
    quantileIdx v 5 = v.getD (v.length - 1) 0 := by
  have hlen : 0 < v.length := List.length_pos.2 hne
  have hk : ratFloorNat (mkRat ((5 * (v.length - 1) : ℕ) : ℤ) 5)
      = v.length - 1 := by
    rw [ratFloorNat_mkRat]
    omega
  simp only [quantileIdx]
  rw [hk]
  have hb : v.getD (v.length - 1 + 1) (v.getD (v.length - 1) 0)
      = v.getD (v.length - 1) 0 :=
    List.getD_eq_default v _ (by omega)
  rw [hb]
  have hzero : rSub (mkRat ((5 * (v.length - 1) : ℕ) : ℤ) 5)
      ((v.length - 1 : ℕ) : ℚ) = 0 := by
    rw [rSub_eq, Rat.mkRat_eq_div]
    push_cast
    ring_nf
  rw [hzero, rMul_eq, zero_mul, rAdd_eq, add_zero]

theorem quantileIdx_mono_le (v : List ℚ) (hs : v.Sorted (· < ·)) (i j : ℕ)
    (hij : i ≤ j) (hkj : (j * (v.length - 1)) / 5 + 1 < v.length) :
    quantileIdx v i ≤ quantileIdx v j := by
  have hkmono : (i * (v.length - 1)) / 5 ≤ (j * (v.length - 1)) / 5 :=
    Nat.div_le_div_right (Nat.mul_le_mul_right _ hij)
  have hki1 : (i * (v.length - 1)) / 5 + 1 < v.length := by omega
  rcases eq_or_lt_of_le hkmono with heq | hlt
  · rw [quantileIdx_eq_interp v i hki1, quantileIdx_eq_interp v j hkj, ← heq]
    have hab : v.getD ((i * (v.length - 1)) / 5) 0
        < v.getD ((i * (v.length - 1)) / 5 + 1) 0 :=
      getD_lt_of_sorted v hs _ _ (Nat.lt_succ_self _) hki1
    have h1 : ((i * (v.length - 1) : ℕ) : ℚ) ≤ ((j * (v.length - 1) : ℕ) : ℚ) := by
      exact_mod_cast Nat.mul_le_mul_right _ hij
    have hdiv : ((i * (v.length - 1) : ℕ) : ℚ) / 5
        ≤ ((j * (v.length - 1) : ℕ) : ℚ) / 5 := by linarith
    have := mul_le_mul_of_nonneg_right
      (sub_le_sub_right hdiv ((((i * (v.length - 1)) / 5 : ℕ) : ℚ)))
      (sub_nonneg.2 hab.le)
    linarith
  · have hsw_i := quantileIdx_sandwich v hs i hki1
    have hsw_j := quantileIdx_sandwich v hs j hkj
    have hmid : v.getD ((i * (v.length - 1)) / 5 + 1) 0
        ≤ v.getD ((j * (v.length - 1)) / 5) 0 :=
      getD_le_of_sorted v hs _ _ (by omega) (by omega)
    linarith [hsw_i.2, hsw_j.1, hmid]

theorem binOf_eq_zero_iff (E : List ℚ) (x : ℚ) :
    binOf E x = 0 ↔ x ≤ E.getD 1 0 := by
  unfold binOf
  split_ifs with h1 h2 h3 h4 <;> simp_all

theorem binOf_eq_one_iff (E : List ℚ) (x : ℚ) :
    binOf E x = 1 ↔ ¬ x ≤ E.getD 1 0 ∧ x ≤ E.getD 2 0 := by
  unfold binOf
  split_ifs with h1 h2 h3 h4 <;> simp_all

theorem binOf_eq_two_iff (E : List ℚ) (x : ℚ) :
    binOf E x = 2 ↔ ¬ x ≤ E.getD 1 0 ∧ ¬ x ≤ E.getD 2 0 ∧ x ≤ E.getD 3 0 := by
  unfold binOf
  split_ifs with h1 h2 h3 h4 <;> simp_all

theorem binOf_eq_three_iff (E : List ℚ) (x : ℚ) :
    binOf E x = 3 ↔ ¬ x ≤ E.getD 1 0 ∧ ¬ x ≤ E.getD 2 0 ∧ ¬ x ≤ E.getD 3 0
      ∧ x ≤ E.getD 4 0 := by
  unfold binOf
  split_ifs with h1 h2 h3 h4 <;> simp_all

theorem binOf_eq_four_iff (E : List ℚ) (x : ℚ) :
    binOf E x = 4 ↔ ¬ x ≤ E.getD 1 0 ∧ ¬ x ≤ E.getD 2 0 ∧ ¬ x ≤ E.getD 3 0
      ∧ ¬ x ≤ E.getD 4 0 := by
  unfold binOf
  split_ifs with h1 h2 h3 h4 <;> simp_all

theorem countP_and_not_eq_sub {α : Type} (l : List α) (p q : α → Bool)
    (himp : ∀ x ∈ l, p x = true → q x = true) :
    l.countP (fun x => q x && ! p x) = l.countP q - l.countP p := by
  induction l with
  | nil => simp
  | cons a t ih =>
    have ht : ∀ x ∈ t, p x = true → q x = true :=
      fun x hx => himp x (List.mem_cons_of_mem a hx)
    have hle : t.countP p ≤ t.countP q := List.countP_mono_left ht
    rw [List.countP_cons, List.countP_cons, List.countP_cons, ih ht]
    by_cases hp : p a = true
    · have hq := himp a (List.mem_cons_self a t) hp
      simp only [hp, hq, Bool.not_true, Bool.and_false, if_pos, if_neg,
        Bool.false_eq_true, if_false, if_true]
      omega
    · simp only [Bool.not_eq_true] at hp
      by_cases hq : q a = true
      · simp only [hp, hq, Bool.not_false, Bool.and_true, if_true,
          Bool.false_eq_true, if_false]
        omega
      · simp only [Bool.not_eq_true] at hq
        simp only [hp, hq, Bool.not_false, Bool.and_true, Bool.false_eq_true,
          if_false, Bool.false_and]
        omega

theorem countP_not_eq_length_sub {α : Type} (l : List α) (p : α → Bool) :
    l.countP (fun x => ! p x) = l.length - l.countP p := by
  induction l with
  | nil => simp
  | cons a t ih =>
    have hle : t.countP p ≤ t.length := List.countP_le_length p
    rw [List.countP_cons, List.countP_cons, ih, List.length_cons]
    by_cases hp : p a = true
    · simp only [hp, Bool.not_true, Bool.false_eq_true, if_false, if_true]
      omega
    · simp only [Bool.not_eq_true] at hp
      simp only [hp, Bool.not_false, Bool.false_eq_true, if_false, if_true]
      omega

set_option maxHeartbeats 1600000 in
/-- Claim C3 (amended): when the covariate's values are pairwise
distinct (no ties) and at least 2 records are binned, the five bins
partition the records so that every bin holds ⌊N/5⌋ or ⌈N/5⌉ records
and any two bin sizes differ by at most 1.  The original claim's
"including inputs whose covariate contains tied values" is false: see
the counterexample, where tied values force sizes 4 and 0. -/
theorem qcut5_balanced (xs : List ℚ) (hnd : xs.Nodup) (hlen2 : 2 ≤ xs.length)
    (labels : List (Fin 5)) (hq : qcut5 xs = some labels) :
    (∀ i : Fin 5, labels.countP (· == i) = xs.length / 5 ∨
      labels.countP (· == i) = (xs.length + 4) / 5) ∧
    ∀ i j : Fin 5, labels.countP (· == i) ≤ labels.countP (· == j) + 1 := by
  have hne : xs ≠ [] := by
    intro h
    rw [h] at hlen2
    simp at hlen2
  have hempty : xs.isEmpty = false := by
    cases xs with
    | nil => exact absurd rfl hne
    | cons a t => rfl
  rw [qcut5, hempty] at hq
  simp only [Bool.false_eq_true, if_false] at hq
  by_cases hnodup : (qedges xs).Nodup
  case neg =>
    rw [if_neg hnodup] at hq
    exact absurd hq (by simp)
  rw [if_pos hnodup] at hq
  have hlabels : labels = xs.map (binOf (qedges xs)) := (Option.some.inj hq).symm
  have hperm : List.Perm (sortAsc xs) xs := List.perm_insertionSort _ xs
  have hvlen : (sortAsc xs).length = xs.length := hperm.length_eq
  have hs : (sortAsc xs).Sorted (· < ·) := sortAsc_sorted_lt xs hnd
  have hvne : sortAsc xs ≠ [] := by
    intro h
    rw [h, List.length_nil] at hvlen
    omega
  have hk1 : (1 * ((sortAsc xs).length - 1)) / 5 + 1 < (sortAsc xs).length := by
    omega
  have hk2 : (2 * ((sortAsc xs).length - 1)) / 5 + 1 < (sortAsc xs).length := by
    omega
  have hk3 : (3 * ((sortAsc xs).length - 1)) / 5 + 1 < (sortAsc xs).length := by
    omega
  have hk4 : (4 * ((sortAsc xs).length - 1)) / 5 + 1 < (sortAsc xs).length := by
    omega
  have hs1 := quantileIdx_sandwich _ hs 1 hk1
  have hs2 := quantileIdx_sandwich _ hs 2 hk2
  have hs3 := quantileIdx_sandwich _ hs 3 hk3
  have hs4 := quantileIdx_sandwich _ hs 4 hk4
  have hc1 : (sortAsc xs).countP (fun x => decide (x ≤ quantileIdx (sortAsc xs) 1))
      = (1 * ((sortAsc xs).length - 1)) / 5 + 1 :=
    countP_le_of_sorted_lt _ hs _ _ (by omega) hs1.1 (fun _ => hs1.2)
  have hc2 : (sortAsc xs).countP (fun x => decide (x ≤ quantileIdx (sortAsc xs) 2))
      = (2 * ((sortAsc xs).length - 1)) / 5 + 1 :=
    countP_le_of_sorted_lt _ hs _ _ (by omega) hs2.1 (fun _ => hs2.2)
  have hc3 : (sortAsc xs).countP (fun x => decide (x ≤ quantileIdx (sortAsc xs) 3))
      = (3 * ((sortAsc xs).length - 1)) / 5 + 1 :=
    countP_le_of_sorted_lt _ hs _ _ (by omega) hs3.1 (fun _ => hs3.2)
  have hc4 : (sortAsc xs).countP (fun x => decide (x ≤ quantileIdx (sortAsc xs) 4))
      = (4 * ((sortAsc xs).length - 1)) / 5 + 1 :=
    countP_le_of_sorted_lt _ hs _ _ (by omega) hs4.1 (fun _ => hs4.2)
  have he12 : quantileIdx (sortAsc xs) 1 ≤ quantileIdx (sortAsc xs) 2 :=
    quantileIdx_mono_le _ hs 1 2 (by norm_num) hk2
  have he23 : quantileIdx (sortAsc xs) 2 ≤ quantileIdx (sortAsc xs) 3 :=
    quantileIdx_mono_le _ hs 2 3 (by norm_num) hk3
  have he34 : quantileIdx (sortAsc xs) 3 ≤ quantileIdx (sortAsc xs) 4 :=
    quantileIdx_mono_le _ hs 3 4 (by norm_num) hk4
  have hsize0 : labels.countP (· == (0 : Fin 5))
      = (1 * ((sortAsc xs).length - 1)) / 5 + 1 := by
    rw [hlabels, List.countP_map, ← hperm.countP_eq, ← hc1]
    apply List.countP_congr
    intro x _
    simp only [Function.comp_apply, beq_iff_eq, decide_eq_true_eq]
    exact binOf_eq_zero_iff (qedges xs) x
  have hsize1 : labels.countP (· == (1 : Fin 5))
      = ((2 * ((sortAsc xs).length - 1)) / 5 + 1)
        - ((1 * ((sortAsc xs).length - 1)) / 5 + 1) := by
    rw [hlabels, List.countP_map, ← hperm.countP_eq, ← hc1, ← hc2]
    rw [← countP_and_not_eq_sub (sortAsc xs)
      (fun x => decide (x ≤ quantileIdx (sortAsc xs) 1))
      (fun x => decide (x ≤ quantileIdx (sortAsc xs) 2))
      (fun x _ h => decide_eq_true (le_trans (of_decide_eq_true h) he12))]
    apply List.countP_congr
    intro x _
    simp only [Function.comp_apply, beq_iff_eq, Bool.and_eq_true,
      Bool.not_eq_true', decide_eq_true_eq, decide_eq_false_iff_not]
    rw [binOf_eq_one_iff (qedges xs) x]
    exact ⟨fun h => ⟨h.2, h.1⟩, fun h => ⟨h.2, h.1⟩⟩
  have hsize2 : labels.countP (· == (2 : Fin 5))
      = ((3 * ((sortAsc xs).length - 1)) / 5 + 1)
        - ((2 * ((sortAsc xs).length - 1)) / 5 + 1) := by
    rw [hlabels, List.countP_map, ← hperm.countP_eq, ← hc2, ← hc3]
    rw [← countP_and_not_eq_sub (sortAsc xs)
      (fun x => decide (x ≤ quantileIdx (sortAsc xs) 2))
      (fun x => decide (x ≤ quantileIdx (sortAsc xs) 3))
      (fun x _ h => decide_eq_true (le_trans (of_decide_eq_true h) he23))]
    apply List.countP_congr
    intro x _
    simp only [Function.comp_apply, beq_iff_eq, Bool.and_eq_true,
      Bool.not_eq_true', decide_eq_true_eq, decide_eq_false_iff_not]
    rw [binOf_eq_two_iff (qedges xs) x]
    constructor
    · exact fun h => ⟨h.2.2, h.2.1⟩
    · intro h
      exact ⟨fun h1 => h.2 (le_trans h1 he12), h.2, h.1⟩
  have hsize3 : labels.countP (· == (3 : Fin 5))
      = ((4 * ((sortAsc xs).length - 1)) / 5 + 1)
        - ((3 * ((sortAsc xs).length - 1)) / 5 + 1) := by
    rw [hlabels, List.countP_map, ← hperm.countP_eq, ← hc3, ← hc4]
    rw [← countP_and_not_eq_sub (sortAsc xs)
      (fun x => decide (x ≤ quantileIdx (sortAsc xs) 3))
      (fun x => decide (x ≤ quantileIdx (sortAsc xs) 4))
      (fun x _ h => decide_eq_true (le_trans (of_decide_eq_true h) he34))]
    apply List.countP_congr
    intro x _
    simp only [Function.comp_apply, beq_iff_eq, Bool.and_eq_true,
      Bool.not_eq_true', decide_eq_true_eq, decide_eq_false_iff_not]
    rw [binOf_eq_three_iff (qedges xs) x]
    constructor
    · exact fun h => ⟨h.2.2.2, h.2.2.1⟩
    · intro h
      refine ⟨fun h1 => h.2 (le_trans h1 (le_trans he12 he23)),
        fun h2 => h.2 (le_trans h2 he23), h.2, h.1⟩
  have hsize4 : labels.countP (· == (4 : Fin 5))
      = (sortAsc xs).length - ((4 * ((sortAsc xs).length - 1)) / 5 + 1) := by
    rw [hlabels, List.countP_map, ← hperm.countP_eq, ← hc4,
      ← countP_not_eq_length_sub (sortAsc xs)
        (fun x => decide (x ≤ quantileIdx (sortAsc xs) 4))]
    apply List.countP_congr
    intro x _
    simp only [Function.comp_apply, beq_iff_eq, Bool.not_eq_true',
      decide_eq_false_iff_not]
    rw [binOf_eq_four_iff (qedges xs) x]
    constructor
    · exact fun h => h.2.2.2
    · intro h
      refine ⟨fun h1 => h (le_trans h1 (le_trans he12 (le_trans he23 he34))),
        fun h2 => h (le_trans h2 (le_trans he23 he34)),
        fun h3 => h (le_trans h3 he34), h⟩
  have hr : ((sortAsc xs).length - 1) % 5 = 0 ∨ ((sortAsc xs).length - 1) % 5 = 1
      ∨ ((sortAsc xs).length - 1) % 5 = 2 ∨ ((sortAsc xs).length - 1) % 5 = 3
      ∨ ((sortAsc xs).length - 1) % 5 = 4 := by
    omega
  have hforall : ∀ i : Fin 5, labels.countP (· == i) = xs.length / 5 ∨
      labels.countP (· == i) = (xs.length + 4) / 5 := by
    intro i
    fin_cases i
    · show labels.countP (· == (0 : Fin 5)) = xs.length / 5 ∨
        labels.countP (· == (0 : Fin 5)) = (xs.length + 4) / 5
      rw [hsize0, ← hvlen]
      rcases hr with h5 | h5 | h5 | h5 | h5 <;> omega
    · show labels.countP (· == (1 : Fin 5)) = xs.length / 5 ∨
        labels.countP (· == (1 : Fin 5)) = (xs.length + 4) / 5
      rw [hsize1, ← hvlen]
      rcases hr with h5 | h5 | h5 | h5 | h5 <;> omega
    · show labels.countP (· == (2 : Fin 5)) = xs.length / 5 ∨
        labels.countP (· == (2 : Fin 5)) = (xs.length + 4) / 5
      rw [hsize2, ← hvlen]
      rcases hr with h5 | h5 | h5 | h5 | h5 <;> omega
    · show labels.countP (· == (3 : Fin 5)) = xs.length / 5 ∨
        labels.countP (· == (3 : Fin 5)) = (xs.length + 4) / 5
      rw [hsize3, ← hvlen]
      rcases hr with h5 | h5 | h5 | h5 | h5 <;> omega
    · show labels.countP (· == (4 : Fin 5)) = xs.length / 5 ∨
        labels.countP (· == (4 : Fin 5)) = (xs.length + 4) / 5
      rw [hsize4, ← hvlen]
      rcases hr with h5 | h5 | h5 | h5 | h5 <;> omega
  refine ⟨hforall, ?_⟩
  intro i j
  have hceil : (xs.length + 4) / 5 ≤ xs.length / 5 + 1 := by omega
  rcases hforall i with hi | hi <;> rcases hforall j with hj | hj <;> omega

/-- Witness for C3's amended theorem on the distinct-valued column
[3, 1, 4, 2, 7, 5] (N = 6): bins have sizes 2, 1, 1, 1, 1. -/
theorem qcut5_balanced_witness :
    (([3, 1, 4, 2, 7, 5] : List ℚ).Nodup ∧ 2 ≤ ([3, 1, 4, 2, 7, 5] : List ℚ).length ∧
      qcut5 [3, 1, 4, 2, 7, 5] = some [1, 0, 2, 0, 4, 3]) ∧
    ((∀ i : Fin 5, ([1, 0, 2, 0, 4, 3] : List (Fin 5)).countP (· == i)
        = ([3, 1, 4, 2, 7, 5] : List ℚ).length / 5 ∨
      ([1, 0, 2, 0, 4, 3] : List (Fin 5)).countP (· == i)
        = (([3, 1, 4, 2, 7, 5] : List ℚ).length + 4) / 5) ∧
    ∀ i j : Fin 5, ([1, 0, 2, 0, 4, 3] : List (Fin 5)).countP (· == i)
      ≤ ([1, 0, 2, 0, 4, 3] : List (Fin 5)).countP (· == j) + 1) :=
  ⟨⟨by decide, by decide, by decide⟩,
    qcut5_balanced [3, 1, 4, 2, 7, 5] (by decide) (by decide)
      [1, 0, 2, 0, 4, 3] (by decide)⟩

end InPDApp
